import Mathlib

/-!
Verification of the schema-diff comparison engine (UNO-SOFT/schema-diff,
main.go) against its specification.

The Go source is shallowly embedded: the `Object` and `Column` records, the
`colCompare` column-diff function, the object-level set differences computed
inline in `Compare`, the per-catalog table→columns index built by the
single linear column scan, the error-handling prefix of `Compare`, and an
event-order model of `Compare`'s goroutine orchestration.

Go maps are modelled as functions `String → Option α` updated by successive
writes (last write wins), matching Go's map-assignment semantics.
-/

set_option autoImplicit false

namespace SchemaDiff

/-- Embeds `type Object struct { Name, Type string }` (main.go). The Go field
`Type` is rendered `Typ` because `Type` is reserved in Lean. -/
structure Object where
  Name : String
  Typ : String
deriving DecidableEq, Repr

/-- Embeds `type Column struct { Schema, Table, Name string; Type string }`
(main.go). The Go field `Type` is rendered `Typ`. -/
structure Column where
  Schema : String
  Table : String
  Name : String
  Typ : String
deriving DecidableEq, Repr

/-- Embeds `func (c Column) String() string { return c.Name + " " + c.Type }`. -/
def Column.render (c : Column) : String := c.Name ++ " " ++ c.Typ

/-- A Go `map[string]Column` as a lookup function; `mapInsert` is one map
assignment `m[c.Name] = c`. -/
def mapInsert (m : String → Option Column) (c : Column) : String → Option Column :=
  fun k => if k = c.Name then some c else m k

/-- Builds the name→column map of `colCompare` by one forward pass
(`for _, c := range cols { m[c.Name] = c }`): a later column with the same
name overwrites an earlier one, as in a Go map. -/
def buildMap (cols : List Column) : String → Option Column :=
  cols.foldl mapInsert (fun _ => none)

/-- Line emitted by `colCompare` for a remote column absent from local:
`fmt.Fprintf(&diff, "ALTER TABLE %s ADD %s %s;\n", r.Table, r.Name, r.Type)`. -/
def addLine (r : Column) : String :=
  "ALTER TABLE " ++ r.Table ++ " ADD " ++ r.Name ++ " " ++ r.Typ ++ ";\n"

/-- Line emitted by `colCompare` for a column present in both with differing
types: `fmt.Fprintf(&diff, "ALTER TABLE %s MODIFY %s %s; --%s\n", r.Table,
r.Name, r.Type, l.Type)`. -/
def modifyLine (r l : Column) : String :=
  "ALTER TABLE " ++ r.Table ++ " MODIFY " ++ r.Name ++ " " ++ r.Typ ++ "; --" ++ l.Typ ++ "\n"

/-- Line emitted by `colCompare` for a local column absent from remote:
`fmt.Fprintf(&diff, "ALTER TABLE %s DROP %s;\n", l.Table, l.Name)`. -/
def dropLine (l : Column) : String :=
  "ALTER TABLE " ++ l.Table ++ " DROP " ++ l.Name ++ ";\n"

/-- The ADD/MODIFY decision of `colCompare`'s first loop for one remote
column `r`, given the local name→column map. -/
def addModify (localM : String → Option Column) (r : Column) : String :=
  match localM r.Name with
  | none => addLine r
  | some l => if l.Typ = r.Typ then "" else modifyLine r l

/-- The DROP decision of `colCompare`'s second loop for one local column `l`,
given the remote name→column map. -/
def dropCheck (remoteM : String → Option Column) (l : Column) : String :=
  match remoteM l.Name with
  | some _ => ""
  | none => dropLine l

/-- Sequential accumulation of emitted chunks, as a `strings.Builder` does. -/
def strCat : List String → String
  | [] => ""
  | s :: rest => s ++ strCat rest

/-- Embeds `func colCompare(local, remote []Column) string` (main.go):
build `localM` from local, loop over remote emitting ADD/MODIFY,
build `remoteM` from remote, loop over local emitting DROP; the
`strings.Builder` accumulation is the concatenation of the per-iteration
emissions in loop order. (The source also computes an unused `n :=
max(len(local), len(remote))`, which affects nothing.) -/
def colCompare (lo re : List Column) : String :=
  let localM := buildMap lo
  let part1 := strCat (re.map (addModify localM))
  let remoteM := buildMap re
  let part2 := strCat (lo.map (dropCheck remoteM))
  part1 ++ part2

theorem strCat_eq_empty {l : List String} (h : ∀ s ∈ l, s = "") : strCat l = "" := by
  induction l with
  | nil => rfl
  | cons s rest ih =>
    have hs : s = "" := h s (List.mem_cons_self s rest)
    have hr : strCat rest = "" := ih (fun x hx => h x (List.mem_cons_of_mem s hx))
    simp [strCat, hs, hr]

/-- A map write followed by lookup: the Go-map model reads back the
latest write for the written key and is unchanged elsewhere. -/
theorem mapInsert_eval (m : String → Option Column) (c : Column) (k : String) :
    mapInsert m c k = if k = c.Name then some c else m k := rfl

/-- First-preferring choice on options, used to state fold characterizations. -/
def optOr {α : Type} (a b : Option α) : Option α :=
  match a with
  | some x => some x
  | none => b

theorem optOr_none {α : Type} (b : Option α) : optOr none b = b := rfl

theorem optOr_some {α : Type} (x : α) (b : Option α) : optOr (some x) b = some x := rfl

/-- Folding map writes, read at `name`, collapses to a fold keeping the last
column written under `name`. -/
theorem buildMap_fold (cols : List Column) (m : String → Option Column) (name : String) :
    (cols.foldl mapInsert m) name =
      cols.foldl (fun acc c => if c.Name = name then some c else acc) (m name) := by
  induction cols generalizing m with
  | nil => rfl
  | cons c rest ih =>
    simp only [List.foldl_cons]
    rw [ih]
    congr 1
    simp only [mapInsert]
    by_cases h : c.Name = name
    · simp [h]
    · have h2 : ¬ name = c.Name := fun hh => h hh.symm
      simp [h, h2]

theorem getLast?_cons_optOr {α : Type} (c : α) (L : List α) :
    (c :: L).getLast? = optOr L.getLast? (some c) := by
  cases L with
  | nil => rfl
  | cons a as =>
    rw [List.getLast?_cons_cons,
      List.getLast?_eq_getLast_of_ne_nil (List.cons_ne_nil a as), optOr_some]

theorem lastFold_eq_getLast_filter (cols : List Column) (name : String) (acc : Option Column) :
    cols.foldl (fun acc c => if c.Name = name then some c else acc) acc =
      optOr ((cols.filter (fun c => c.Name == name)).getLast?) acc := by
  induction cols generalizing acc with
  | nil => simp [optOr_none]
  | cons c rest ih =>
    simp only [List.foldl_cons, List.filter_cons]
    by_cases h : c.Name = name
    · have hb : (c.Name == name) = true := by simp [h]
      rw [if_pos h, hb, if_pos rfl, ih, getLast?_cons_optOr]
      cases (rest.filter (fun c => c.Name == name)).getLast? <;>
        simp only [optOr_none, optOr_some]
    · have hb : (c.Name == name) = false := by simp [h]
      rw [if_neg h, hb]
      simp only [Bool.false_eq_true, if_false]
      exact ih acc

/-- The name→column map that `colCompare` builds holds, for every name,
exactly the last column of the slice carrying that name (later writes to a
Go map overwrite earlier ones). -/
theorem buildMap_eq_getLast_filter (cols : List Column) (name : String) :
    buildMap cols name = (cols.filter (fun c => c.Name == name)).getLast? := by
  unfold buildMap
  rw [buildMap_fold, lastFold_eq_getLast_filter]
  cases (cols.filter (fun c => c.Name == name)).getLast? <;> rfl

theorem buildMap_some_mem {cols : List Column} {name : String} {l : Column}
    (h : buildMap cols name = some l) : l ∈ cols ∧ l.Name = name := by
  rw [buildMap_eq_getLast_filter] at h
  have hx : l ∈ (cols.filter (fun c => c.Name == name)).getLast? := by
    rw [h]; rfl
  rcases List.mem_getLast?_eq_getLast hx with ⟨hne, hl⟩
  have hmem : l ∈ cols.filter (fun c => c.Name == name) := hl ▸ List.getLast_mem hne
  have := List.mem_filter.mp hmem
  exact ⟨this.1, by simpa using this.2⟩

theorem buildMap_isSome_of_mem {cols : List Column} {c : Column} (h : c ∈ cols) :
    ∃ l, buildMap cols c.Name = some l := by
  have hf : c ∈ cols.filter (fun x => x.Name == c.Name) :=
    List.mem_filter.mpr ⟨h, by simp⟩
  have hne : cols.filter (fun x => x.Name == c.Name) ≠ [] :=
    List.ne_nil_of_mem hf
  refine ⟨(cols.filter (fun x => x.Name == c.Name)).getLast hne, ?_⟩
  rw [buildMap_eq_getLast_filter]
  exact List.getLast?_eq_getLast_of_ne_nil hne

/-- Embeds `type CompareOptions struct { Types []string; Pattern string;
TextDiff bool }` (main.go; the flag `--text` sets `TextDiff`). -/
structure CompareOptions where
  Types : List String
  Pattern : String
  TextDiff : Bool
deriving DecidableEq, Repr

/-- The per-table column diff computed by `Compare`: the source invokes
`colCompare(loCols[o.Name], reCols[o.Name])` unconditionally — no statement
of `Compare` (or of any other function in the source) reads `O.TextDiff`
after flag parsing, so the selected diff mode does not enter the
computation. -/
def CompareOptions.colDiff (_O : CompareOptions) (lo re : List Column) : String :=
  colCompare lo re

/-- Embeds the "Objects missing from local schema" section of `Compare`
(main.go): `other` is loaded with every local object, then each remote
object absent from `other` is printed, in remote's iteration order.
Membership is on the whole `Object` value, i.e. the (name, type) pair. -/
def missingFromLocal (lo re : List Object) : List Object :=
  re.filter (fun o => decide (o ∉ lo))

/-- Embeds the "Extraneous objects in local schema" section of `Compare`
(main.go): `other` is reloaded with every remote object, then each local
object absent from `other` is printed, in local's iteration order. -/
def extraneousInLocal (lo re : List Object) : List Object :=
  lo.filter (fun o => decide (o ∉ re))

/-- A Go `map[string][]Column` as a lookup function; `flushTable` is the one
map assignment `dest[t] = run` performed under the mutex. -/
def flushTable (m : String → Option (List Column)) (t : String) (run : List Column) :
    String → Option (List Column) :=
  fun k => if k = t then some run else m k

/-- The empty `map[string][]Column`. -/
def emptyColIdx : String → Option (List Column) := fun _ => none

/-- One iteration of the column scan in `Compare` (main.go):
`if len(cols) > 0 && cols[len(cols)-1].Table != c.Table { dest[...] = cols;
cols = nil }; cols = append(cols, c)`. The state is the map built so far
plus the current run `cols`. -/
def scanStep (st : (String → Option (List Column)) × List Column) (c : Column) :
    (String → Option (List Column)) × List Column :=
  match st.2.getLast? with
  | some lastC =>
    if lastC.Table = c.Table then (st.1, st.2 ++ [c])
    else (flushTable st.1 lastC.Table st.2, [c])
  | none => (st.1, st.2 ++ [c])

/-- The per-catalog table→columns index built by the single linear column
scan of `Compare` (main.go), including the final unconditional flush
`todo.Dest[cols[len(cols)-1].Table] = cols`. If the scanned row list is
empty, `cols[len(cols)-1]` indexes an empty slice — a Go runtime panic —
modelled here as `none`. -/
def tableIndex (rows : List Column) : Option (String → Option (List Column)) :=
  match (rows.foldl scanStep (emptyColIdx, [])).2.getLast? with
  | none => none
  | some lastC =>
    some (flushTable (rows.foldl scanStep (emptyColIdx, [])).1 lastC.Table
      (rows.foldl scanStep (emptyColIdx, [])).2)

/-- The final (rightmost) maximal run of rows of table `t`, described on the
reversed row list: skip the reversed suffix of other tables, then take the
`t`-block. -/
def revLastRunAt (t : String) (rrows : List Column) : List Column :=
  (rrows.dropWhile (fun c => !(c.Table == t))).takeWhile (fun c => c.Table == t)

/-- What the index stores for one table: nothing if the table never occurs,
otherwise its final run (in scan order). -/
def optRun (l : List Column) : Option (List Column) :=
  if l = [] then none else some l.reverse

/-- All rows of table `t` form one contiguous block of the row sequence. -/
def Contiguous (t : String) (rows : List Column) : Prop :=
  ∃ pre mid post, rows = pre ++ mid ++ post ∧
    (∀ c ∈ pre, c.Table ≠ t) ∧ (∀ c ∈ mid, c.Table = t) ∧ (∀ c ∈ post, c.Table ≠ t)

theorem dropWhile_append_of_forall {α : Type} (p : α → Bool) (l₁ l₂ : List α)
    (h : ∀ x ∈ l₁, p x = true) : (l₁ ++ l₂).dropWhile p = l₂.dropWhile p := by
  induction l₁ with
  | nil => rfl
  | cons a l ih =>
    rw [List.cons_append, List.dropWhile_cons_of_pos (h a (List.mem_cons_self a l))]
    exact ih (fun x hx => h x (List.mem_cons_of_mem a hx))

theorem takeWhile_append_of_forall {α : Type} (p : α → Bool) (l₁ l₂ : List α)
    (h : ∀ x ∈ l₁, p x = true) : (l₁ ++ l₂).takeWhile p = l₁ ++ l₂.takeWhile p := by
  induction l₁ with
  | nil => rfl
  | cons a l ih =>
    rw [List.cons_append, List.takeWhile_cons_of_pos (h a (List.mem_cons_self a l)),
      ih (fun x hx => h x (List.mem_cons_of_mem a hx)), List.cons_append]

theorem takeWhile_eq_nil_of_forall {α : Type} (p : α → Bool) (l : List α)
    (h : ∀ x ∈ l, p x = false) : l.takeWhile p = [] := by
  cases l with
  | nil => rfl
  | cons a l =>
    apply List.takeWhile_cons_of_neg
    simp [h a (List.mem_cons_self a l)]

theorem revLastRunAt_append_skip (t : String) (pre rest : List Column)
    (h : ∀ x ∈ pre, (x.Table == t) = false) :
    revLastRunAt t (pre ++ rest) = revLastRunAt t rest := by
  unfold revLastRunAt
  rw [dropWhile_append_of_forall _ pre rest (fun x hx => by simp [h x hx])]

theorem scanStep_of_getLast {st : (String → Option (List Column)) × List Column}
    {lastC : Column} (c : Column) (h : st.2.getLast? = some lastC) :
    scanStep st c =
      if lastC.Table = c.Table then (st.1, st.2 ++ [c])
      else (flushTable st.1 lastC.Table st.2, [c]) := by
  unfold scanStep
  rw [h]

/-- Invariant of the column scan: after processing `(c :: rr).reverse`
(i.e. rows ending with the run that ends at `c`... rows are `(c :: rr)`
reversed, so `c` is the last row), the current slice is the final run and
the map holds the final run of every table among the already-flushed
prefix. -/
theorem scan_inv (rr : List Column) : ∀ c : Column,
    (((c :: rr).reverse).foldl scanStep (emptyColIdx, [])).2.reverse =
      (c :: rr).takeWhile (fun x => x.Table == c.Table) ∧
    ∀ t, (((c :: rr).reverse).foldl scanStep (emptyColIdx, [])).1 t =
      optRun (revLastRunAt t ((c :: rr).dropWhile (fun x => x.Table == c.Table))) := by
  induction rr with
  | nil =>
    intro c
    constructor
    · show [c].reverse = _
      rw [List.takeWhile_cons_of_pos (by simp)]
      rfl
    · intro t
      show emptyColIdx t = optRun (revLastRunAt t ([c].dropWhile (fun x => x.Table == c.Table)))
      rw [List.dropWhile_cons_of_pos (by simp)]
      rfl
  | cons d rr' ih =>
    intro c
    obtain ⟨ih1, ih2⟩ := ih d
    have hrev : (c :: d :: rr').reverse = ((d :: rr').reverse) ++ [c] := List.reverse_cons c (d :: rr')
    rw [hrev, List.foldl_append, List.foldl_cons, List.foldl_nil]
    have hlast : (((d :: rr').reverse).foldl scanStep (emptyColIdx, [])).2.getLast? = some d := by
      rw [← List.head?_reverse, ih1, List.takeWhile_cons_of_pos (by simp)]
      rfl
    by_cases heq : d.Table = c.Table
    · have hfun : (fun x : Column => x.Table == c.Table) = (fun x : Column => x.Table == d.Table) := by
        funext x
        rw [heq]
      rw [scanStep_of_getLast c hlast, if_pos heq]
      constructor
      · show ((((d :: rr').reverse).foldl scanStep (emptyColIdx, [])).2 ++ [c]).reverse = _
        have hrhs : (c :: d :: rr').takeWhile (fun x : Column => x.Table == d.Table) =
            c :: ((d :: rr').takeWhile (fun x : Column => x.Table == d.Table)) :=
          List.takeWhile_cons_of_pos (by simp [heq])
        rw [List.reverse_append, ih1, hfun, hrhs]
        rfl
      · intro t
        show (((d :: rr').reverse).foldl scanStep (emptyColIdx, [])).1 t = _
        rw [List.dropWhile_cons_of_pos (by simp), hfun]
        exact ih2 t
    · have hbc : (d.Table == c.Table) = false := by simp [heq]
      rw [scanStep_of_getLast c hlast, if_neg heq]
      have hdrop : (c :: d :: rr').dropWhile (fun x => x.Table == c.Table) = d :: rr' := by
        rw [List.dropWhile_cons_of_pos (by simp), List.dropWhile_cons_of_neg (by simp [hbc])]
      constructor
      · show [c].reverse = _
        rw [List.takeWhile_cons_of_pos (by simp), List.takeWhile_cons_of_neg (by simp [heq])]
        rfl
      · intro t
        rw [hdrop]
        show (if t = d.Table then some (((d :: rr').reverse).foldl scanStep (emptyColIdx, [])).2
            else (((d :: rr').reverse).foldl scanStep (emptyColIdx, [])).1 t) =
          optRun (revLastRunAt t (d :: rr'))
        by_cases ht : t = d.Table
        · rw [if_pos ht, ht]
          unfold revLastRunAt
          rw [List.dropWhile_cons_of_neg (by simp), ← ih1]
          unfold optRun
          have hne2 : (((d :: rr').reverse).foldl scanStep (emptyColIdx, [])).2.reverse ≠ [] := by
            rw [ih1, List.takeWhile_cons_of_pos (by simp)]
            exact List.cons_ne_nil _ _
          rw [if_neg hne2, List.reverse_reverse]
        · rw [if_neg ht, ih2 t]
          have hskip : revLastRunAt t
              ((d :: rr').dropWhile (fun x => x.Table == d.Table)) =
              revLastRunAt t (d :: rr') := by
            conv_rhs => rw [← List.takeWhile_append_dropWhile
              (fun x : Column => x.Table == d.Table) (d :: rr')]
            rw [revLastRunAt_append_skip]
            intro x hx
            have hxd : x.Table = d.Table := by
              simpa using List.mem_takeWhile_imp hx
            have hxt : ¬x.Table = t := fun hh => ht (hh ▸ hxd)
            simp [hxt]
          rw [hskip]

theorem tableIndex_of_getLast {rows : List Column} {lastC : Column}
    (h : (rows.foldl scanStep (emptyColIdx, [])).2.getLast? = some lastC) :
    tableIndex rows =
      some (flushTable (rows.foldl scanStep (emptyColIdx, [])).1 lastC.Table
        (rows.foldl scanStep (emptyColIdx, [])).2) := by
  unfold tableIndex
  rw [h]

theorem revLastRunAt_dropWhile (t : String) (c : Column) (l : List Column) (ht : ¬t = c.Table) :
    revLastRunAt t ((c :: l).dropWhile (fun x => x.Table == c.Table)) =
      revLastRunAt t (c :: l) := by
  conv_rhs => rw [← List.takeWhile_append_dropWhile (fun x : Column => x.Table == c.Table) (c :: l)]
  rw [revLastRunAt_append_skip]
  intro x hx
  have hxd : x.Table = c.Table := by simpa using List.mem_takeWhile_imp hx
  have hxt : ¬x.Table = t := fun hh => ht (hh ▸ hxd)
  simp [hxt]

/-- Characterization of the scan-built index on a non-empty row list: it is
defined (no panic), and for every table name it stores exactly the final
run of that table's rows, or nothing if the table never occurs. -/
theorem tableIndex_char (rows : List Column) (hne : rows ≠ []) :
    ∃ idx, tableIndex rows = some idx ∧
      ∀ t, idx t = optRun (revLastRunAt t rows.reverse) := by
  obtain ⟨c, rr, hcr⟩ : ∃ c rr, rows.reverse = c :: rr := by
    cases h : rows.reverse with
    | nil =>
      exfalso
      apply hne
      have := congrArg List.reverse h
      simpa using this
    | cons c rr => exact ⟨c, rr, rfl⟩
  have hrows : rows = (c :: rr).reverse := by rw [← hcr, List.reverse_reverse]
  obtain ⟨inv1, inv2⟩ := scan_inv rr c
  have hlast : (((c :: rr).reverse).foldl scanStep (emptyColIdx, [])).2.getLast? = some c := by
    rw [← List.head?_reverse, inv1, List.takeWhile_cons_of_pos (by simp)]
    rfl
  rw [hrows]
  refine ⟨_, tableIndex_of_getLast hlast, ?_⟩
  intro t
  rw [List.reverse_reverse]
  show (if t = c.Table
      then some ((((c :: rr).reverse).foldl scanStep (emptyColIdx, [])).2)
      else (((c :: rr).reverse).foldl scanStep (emptyColIdx, [])).1 t) =
    optRun (revLastRunAt t (c :: rr))
  by_cases ht : t = c.Table
  · rw [if_pos ht, ht]
    unfold revLastRunAt
    rw [List.dropWhile_cons_of_neg (by simp), ← inv1]
    unfold optRun
    have hne2 : (((c :: rr).reverse).foldl scanStep (emptyColIdx, [])).2.reverse ≠ [] := by
      rw [inv1, List.takeWhile_cons_of_pos (by simp)]
      exact List.cons_ne_nil _ _
    rw [if_neg hne2, List.reverse_reverse]
  · rw [if_neg ht, inv2 t, revLastRunAt_dropWhile t c rr ht]

/-- When all rows of table `t` are contiguous and `t` occurs, the final run
of `t` is all of `t`'s rows. -/
theorem revLastRunAt_of_contiguous {t : String} {rows : List Column}
    (hc : Contiguous t rows) (hocc : ∃ x ∈ rows, x.Table = t) :
    revLastRunAt t rows.reverse = (rows.filter (fun c => c.Table == t)).reverse := by
  obtain ⟨pre, mid, post, hdec, hpre, hmid, hpost⟩ := hc
  have hmidne : mid ≠ [] := by
    obtain ⟨x, hx, hxt⟩ := hocc
    rw [hdec] at hx
    rcases List.mem_append.mp hx with hx | hx
    · rcases List.mem_append.mp hx with hx | hx
      · exact absurd hxt (hpre x hx)
      · exact List.ne_nil_of_mem hx
    · exact absurd hxt (hpost x hx)
  obtain ⟨m, ms, hms⟩ : ∃ m ms, mid.reverse = m :: ms := by
    cases h : mid.reverse with
    | nil =>
      exfalso
      apply hmidne
      have := congrArg List.reverse h
      simpa using this
    | cons m ms => exact ⟨m, ms, rfl⟩
  subst hdec
  rw [List.reverse_append, List.reverse_append, List.append_assoc]
  unfold revLastRunAt
  rw [dropWhile_append_of_forall _ post.reverse _
    (fun x hx => by simp [hpost x (List.mem_reverse.mp hx)])]
  have hmem_mt : ∀ x ∈ mid.reverse, x.Table = t :=
    fun x hx => hmid x (List.mem_reverse.mp hx)
  have hdropstop : (mid.reverse ++ pre.reverse).dropWhile (fun c => !(c.Table == t)) =
      mid.reverse ++ pre.reverse := by
    rw [hms]
    apply List.dropWhile_cons_of_neg
    have := hmem_mt m (hms ▸ List.mem_cons_self m ms)
    simp [this]
  rw [hdropstop, takeWhile_append_of_forall _ mid.reverse pre.reverse
    (fun x hx => by simp [hmem_mt x hx]),
    takeWhile_eq_nil_of_forall _ pre.reverse
    (fun x hx => by simp [hpre x (List.mem_reverse.mp hx)])]
  rw [List.filter_append, List.filter_append,
    List.filter_eq_nil_iff.mpr (fun x hx hb => hpre x hx (by simpa using hb)),
    List.filter_eq_self.mpr (fun x hx => by simp [hmid x hx]),
    List.filter_eq_nil_iff.mpr (fun x hx hb => hpost x hx (by simpa using hb))]
  simp

/-- Conversely, if the final run of `t` already contains every row of `t`,
the rows of `t` were contiguous. -/
theorem contiguous_of_lastRun_eq {t : String} {rows : List Column}
    (heq : revLastRunAt t rows.reverse = (rows.filter (fun c => c.Table == t)).reverse) :
    Contiguous t rows := by
  unfold revLastRunAt at heq
  set A := rows.reverse.takeWhile (fun c => !(c.Table == t)) with hA_def
  set D := rows.reverse.dropWhile (fun c => !(c.Table == t)) with hD_def
  set L := D.takeWhile (fun c => c.Table == t) with hL_def
  set B := D.dropWhile (fun c => c.Table == t) with hB_def
  have hsplit1 : rows.reverse = A ++ D := (List.takeWhile_append_dropWhile _ _).symm
  have hsplit2 : D = L ++ B := (List.takeWhile_append_dropWhile _ _).symm
  rw [hsplit2] at hsplit1
  have hrows : rows = B.reverse ++ L.reverse ++ A.reverse := by
    have h2 := congrArg List.reverse hsplit1
    rw [List.reverse_reverse, List.reverse_append, List.reverse_append] at h2
    exact h2
  have hA : ∀ x ∈ A.reverse, x.Table ≠ t := by
    intro x hx
    have := List.mem_takeWhile_imp (hA_def ▸ List.mem_reverse.mp hx)
    simpa using this
  have hL : ∀ x ∈ L.reverse, x.Table = t := by
    intro x hx
    have := List.mem_takeWhile_imp (hL_def ▸ List.mem_reverse.mp hx)
    simpa using this
  have hLrev : L.reverse = rows.filter (fun c => c.Table == t) := by
    rw [heq, List.reverse_reverse]
  have hfB : B.reverse.filter (fun c => c.Table == t) = [] := by
    have hfilter : rows.filter (fun c => c.Table == t) =
        B.reverse.filter (fun c => c.Table == t) ++
          (rows.filter (fun c => c.Table == t) ++ []) := by
      conv_lhs => rw [hrows]
      rw [List.filter_append, List.filter_append, List.append_assoc]
      congr 1
      congr 1
      · rw [List.filter_eq_self.mpr]
        · exact hLrev
        · intro x hx
          simp [hL x hx]
      · exact List.filter_eq_nil_iff.mpr (fun x hx hb => hA x hx (by simpa using hb))
    have hlen := congrArg List.length hfilter
    rw [List.length_append, List.length_append, List.length_nil] at hlen
    have h0 : (B.reverse.filter (fun c => c.Table == t)).length = 0 := by omega
    exact List.eq_nil_of_length_eq_zero h0
  have hB : ∀ x ∈ B.reverse, x.Table ≠ t := by
    intro x hx hxt
    have hmem : x ∈ B.reverse.filter (fun c => c.Table == t) :=
      List.mem_filter.mpr ⟨hx, by simp [hxt]⟩
    rw [hfB] at hmem
    exact absurd hmem (List.not_mem_nil x)
  exact ⟨B.reverse, L.reverse, A.reverse, hrows, hB, hL, hA⟩

/-- C10: on a non-empty row sequence the scan-built table→columns index is
defined, stores for each table exactly the final maximal run of its rows
(`optRun (revLastRunAt ...)`), and stores the complete in-order row list of
an occurring table precisely when that table's rows are contiguous in the
sequence — with non-adjacent runs, the earlier runs are lost. -/
theorem tableIndex_contiguous_spec (rows : List Column) (t : String) (hne : rows ≠ [])
    (hocc : ∃ x ∈ rows, x.Table = t) :
    ∃ idx, tableIndex rows = some idx ∧
      idx t = optRun (revLastRunAt t rows.reverse) ∧
      (Contiguous t rows ↔ idx t = some (rows.filter (fun c => c.Table == t))) := by
  obtain ⟨idx, hidx, hchar⟩ := tableIndex_char rows hne
  refine ⟨idx, hidx, hchar t, ?_, ?_⟩
  · intro hc
    rw [hchar t, revLastRunAt_of_contiguous hc hocc]
    unfold optRun
    have hfne : rows.filter (fun c => c.Table == t) ≠ [] := by
      obtain ⟨x, hx, hxt⟩ := hocc
      exact List.ne_nil_of_mem (List.mem_filter.mpr ⟨hx, by simp [hxt]⟩)
    have hrne : (rows.filter (fun c => c.Table == t)).reverse ≠ [] := by
      intro hq
      apply hfne
      have := congrArg List.reverse hq
      simpa using this
    rw [if_neg hrne, List.reverse_reverse]
  · intro hidxt
    rw [hchar t] at hidxt
    unfold optRun at hidxt
    by_cases hL : revLastRunAt t rows.reverse = []
    · rw [if_pos hL] at hidxt
      exact absurd hidxt (by simp)
    · rw [if_neg hL] at hidxt
      have hLrev : (revLastRunAt t rows.reverse).reverse =
          rows.filter (fun c => c.Table == t) := Option.some.inj hidxt
      have heq2 : revLastRunAt t rows.reverse =
          (rows.filter (fun c => c.Table == t)).reverse := by
        rw [← hLrev, List.reverse_reverse]
      exact contiguous_of_lastRun_eq heq2

/-- Witness for C10: in `[(T,A), (U,B), (T,C)]` table `T` occurs in two
non-adjacent runs; the theorem applies and (by its iff) the index cannot
hold `T`'s complete column list. -/
theorem tableIndex_contiguous_witness :
    ([Column.mk "s" "T" "A" "x", Column.mk "s" "U" "B" "y", Column.mk "s" "T" "C" "z"] ≠
        ([] : List Column)) ∧
    (∃ x ∈ [Column.mk "s" "T" "A" "x", Column.mk "s" "U" "B" "y", Column.mk "s" "T" "C" "z"],
      x.Table = "T") ∧
    (∃ idx, tableIndex [Column.mk "s" "T" "A" "x", Column.mk "s" "U" "B" "y",
        Column.mk "s" "T" "C" "z"] = some idx ∧
      idx "T" = optRun (revLastRunAt "T"
        [Column.mk "s" "T" "A" "x", Column.mk "s" "U" "B" "y",
          Column.mk "s" "T" "C" "z"].reverse) ∧
      (Contiguous "T" [Column.mk "s" "T" "A" "x", Column.mk "s" "U" "B" "y",
          Column.mk "s" "T" "C" "z"] ↔
        idx "T" = some ([Column.mk "s" "T" "A" "x", Column.mk "s" "U" "B" "y",
          Column.mk "s" "T" "C" "z"].filter (fun c => c.Table == "T")))) :=
  ⟨by decide, by decide,
   tableIndex_contiguous_spec _ "T" (by decide) (by decide)⟩

/-- C2: with empty local and remote schemas the object-level comparisons are
indeed empty (as the claim expects), but the run does not complete
normally: the column query also returns zero rows, and the column scan's
final flush indexes `cols[len(cols)-1]` on an empty slice — a runtime
panic, modelled by `tableIndex [] = none` — so the process dies instead of
printing the three empty sections and exiting 0. -/
theorem empty_run_panics_in_column_scan :
    missingFromLocal [] [] = [] ∧ extraneousInLocal [] [] = [] ∧
    tableIndex ([] : List Column) = none :=
  ⟨rfl, rfl, rfl⟩

end SchemaDiff

namespace SchemaDiff

/-- The object-list query text of `Compare` (main.go, const tblQry); Go raw
string whitespace is transcribed with newline escapes and spaces. -/
def tblQry : String :=
  "SELECT\n    DECODE(   object_type\n            , 'INDEX', DECODE(SUBSTR(object_name, 1, 5), 'SYS_C', 'SYS_C', object_name)\n            , 'LOB',   DECODE(SUBSTR(object_name, 1, 7), 'SYS_LOB', 'SYS_LOB', object_name)\n            , object_name) object_name\n  , object_type\n  FROM user_objects\n  WHERE INSTR(:1, object_type) > 0 AND REGEXP_LIKE(object_name, :2)\n  ORDER BY 1, 2"

/-- The column query text of `Compare` (main.go, const colQry); transcribed
like `tblQry`. -/
def colQry : String :=
  "SELECT\n    table_name\n  , column_name\n    , (CASE data_type WHEN 'DATE' THEN 'DATE'\n                  WHEN 'NUMBER' THEN 'NUMBER('||data_precision||','||data_scale||')'\n                  ELSE data_type||'('||data_length||')' END)||\n   (CASE nullable WHEN 'N' THEN ' NOT NULL' ELSE '' END) data_type\n  FROM user_tab_columns\n  WHERE REGEXP_LIKE(table_name, :1)\n  ORDER BY 1, 2"

/-- Embeds `errors.Wrap(err, qry)` (github.com/pkg/errors): the rendered
message is the wrapping text, a colon and space, then the cause. -/
def wrapErr (qry err : String) : String := qry ++ ": " ++ err

/-- One printed object, as `fmt.Println` renders a Go struct:
`\x7bName Type\x7d` and a newline. -/
def objectLine (o : Object) : String := "\x7b" ++ o.Name ++ " " ++ o.Typ ++ "\x7d\n"

/-- Banner of the first report section (three `fmt.Println` calls). -/
def banner1 : String :=
  "\n---------------------------------------\n-- Objects missing from local schema --\n---------------------------------------\n"

/-- Banner of the second report section. -/
def banner2 : String :=
  "\n----------------------------------------\n-- Extraneous objects in local schema --\n----------------------------------------\n"

/-- Banner of the third report section. -/
def banner3 : String :=
  "\n--------------------------------------------------------------------- ---\n-- Data type discrepancies for table columns that exist in both schemas --\n--------------------------------------------------------------------- ---\n"

/-- The tables for which `Compare` spawns a per-table diff producer: remote
objects also present in local (set membership on the whole object) whose
type is exactly TABLE, in remote order. -/
def candidates (lo re : List Object) : List Object :=
  re.filter (fun o => decide (o ∈ lo) && (o.Typ == "TABLE"))

/-- Reading a Go `map[string][]Column`: a missing key yields the nil slice. -/
def idxLookup (m : String → Option (List Column)) (k : String) : List Column :=
  (m k).getD []

/-- The third report section's entries: one `-- <table>` line and the diff
(each `fmt.Println`-terminated) per candidate table with a non-empty diff.
The source collects these from a channel whose arrival order is
unspecified; the model fixes the producers' spawn order (remote order). -/
def tdSection (loCols reCols : String → Option (List Column)) (cands : List Object) : String :=
  strCat (cands.map (fun o =>
    if colCompare (idxLookup loCols o.Name) (idxLookup reCols o.Name) = "" then ""
    else "-- " ++ o.Name ++ "\n" ++
      colCompare (idxLookup loCols o.Name) (idxLookup reCols o.Name) ++ "\n"))

/-- The output-and-error behaviour of `Compare` (main.go) as a function of
the fetch outcomes: object-list results per catalog (`Except`: query error
or rows), the column group's error if any (raw, wrapped here with `colQry`
as at its `QueryContext` site), and the two built column indexes. Mirrors
the source's control flow: `grp.Wait()` is checked before anything is
printed; section 1 is printed before `grpCol.Wait()` is checked; sections 2
and 3 follow. The errgroup's "first error" is modelled as preferring the
local catalog's. -/
def compareRun (loRes reRes : Except String (List Object)) (colErr : Option String)
    (loCols reCols : String → Option (List Column)) : String × Option String :=
  match loRes, reRes with
  | .error e, _ => ("", some (wrapErr tblQry e))
  | .ok _, .error e => ("", some (wrapErr tblQry e))
  | .ok lo, .ok re =>
    let sec1 := banner1 ++ strCat ((missingFromLocal lo re).map objectLine)
    match colErr with
    | some e => (sec1, some (wrapErr colQry e))
    | none =>
      let sec2 := banner2 ++ strCat ((extraneousInLocal lo re).map objectLine)
      let sec3 := banner3 ++ tdSection loCols reCols (candidates lo re)
      (sec1 ++ sec2 ++ sec3, none)

/-- The capacity of the `colDiffs` channel: `n := len(remote); if n <
len(local) { n = len(local) }`. -/
def chanCap (lo re : List Object) : Nat := max re.length lo.length

/-- How many sends a single per-table producer performs: one if its diff is
non-empty, none otherwise. -/
def producerSends (loCols reCols : String → Option (List Column)) (o : Object) : Nat :=
  if colCompare (idxLookup loCols o.Name) (idxLookup reCols o.Name) = "" then 0 else 1

/-- C1: the claim reads "when text-diff mode is selected (TextDiff true), the
per-table column diff consists of `-` and `+` lines instead of ALTER TABLE
statements". The code contradicts it (and its own `--text` flag
documentation): `TextDiff` is parsed but never consulted, so with TextDiff
selected the diff at the spec's type-change example is still the statement-
mode MODIFY line, byte-identical to the diff under TextDiff = false, and
contains no `-`/`+` line. -/
theorem textdiff_flag_has_no_effect :
    (CompareOptions.mk ["TABLE"] "^[RT]_" true).colDiff
        [⟨"local", "A", "ID", "NUMBER(10,0)"⟩] [⟨"remote", "A", "ID", "NUMBER(12,2)"⟩]
      = "ALTER TABLE A MODIFY ID NUMBER(12,2); --NUMBER(10,0)\n" ∧
    (CompareOptions.mk ["TABLE"] "^[RT]_" true).colDiff
        [⟨"local", "A", "ID", "NUMBER(10,0)"⟩] [⟨"remote", "A", "ID", "NUMBER(12,2)"⟩]
      = (CompareOptions.mk ["TABLE"] "^[RT]_" false).colDiff
        [⟨"local", "A", "ID", "NUMBER(10,0)"⟩] [⟨"remote", "A", "ID", "NUMBER(12,2)"⟩] := by
  exact ⟨by decide, rfl⟩

/-- C4: the objects reported missing from local are exactly the remote
objects absent from local (and symmetrically for extraneous), membership on
the (name, type) identity, each preserving its source sequence's order
(sublist of it); the two reports are disjoint when identity keys are
duplicate-free within each input. -/
theorem object_set_difference_spec (lo re : List Object) (x : Object) :
    (x ∈ missingFromLocal lo re ↔ x ∈ re ∧ x ∉ lo) ∧
    (x ∈ extraneousInLocal lo re ↔ x ∈ lo ∧ x ∉ re) ∧
    (missingFromLocal lo re).Sublist re ∧
    (extraneousInLocal lo re).Sublist lo ∧
    ((lo.map (fun o => (o.Name, o.Typ))).Nodup →
      (re.map (fun o => (o.Name, o.Typ))).Nodup →
      ¬(x ∈ missingFromLocal lo re ∧ x ∈ extraneousInLocal lo re)) := by
  refine ⟨?_, ?_, ?_, ?_, ?_⟩
  · simp [missingFromLocal, List.mem_filter]
  · simp [extraneousInLocal, List.mem_filter]
  · exact List.filter_sublist re
  · exact List.filter_sublist lo
  · intro _ _ ⟨hm, he⟩
    have h1 : x ∈ re ∧ x ∉ lo := by
      simpa [missingFromLocal, List.mem_filter] using hm
    have h2 : x ∈ lo ∧ x ∉ re := by
      simpa [extraneousInLocal, List.mem_filter] using he
    exact h1.2 h2.1

/-- Witness for C4 at the spec's end-to-end example 1: local
`[(A,TABLE),(B,TABLE)]`, remote `[(A,TABLE),(C,TABLE)]`; `(C,TABLE)` is
reported missing from local, and `(B,TABLE)` is not reported by both
sections. -/
theorem object_set_difference_witness :
    (⟨"C", "TABLE"⟩ : Object) ∈
        missingFromLocal [⟨"A", "TABLE"⟩, ⟨"B", "TABLE"⟩] [⟨"A", "TABLE"⟩, ⟨"C", "TABLE"⟩] ∧
    ¬((⟨"B", "TABLE"⟩ : Object) ∈
        missingFromLocal [⟨"A", "TABLE"⟩, ⟨"B", "TABLE"⟩] [⟨"A", "TABLE"⟩, ⟨"C", "TABLE"⟩] ∧
      (⟨"B", "TABLE"⟩ : Object) ∈
        extraneousInLocal [⟨"A", "TABLE"⟩, ⟨"B", "TABLE"⟩] [⟨"A", "TABLE"⟩, ⟨"C", "TABLE"⟩]) :=
  ⟨(object_set_difference_spec [⟨"A", "TABLE"⟩, ⟨"B", "TABLE"⟩]
      [⟨"A", "TABLE"⟩, ⟨"C", "TABLE"⟩] ⟨"C", "TABLE"⟩).1.mpr (by decide),
   (object_set_difference_spec [⟨"A", "TABLE"⟩, ⟨"B", "TABLE"⟩]
      [⟨"A", "TABLE"⟩, ⟨"C", "TABLE"⟩] ⟨"B", "TABLE"⟩).2.2.2.2 (by decide) (by decide)⟩

/-- C5 counterexample: the claim asserts `colCompare(C, C) = ""` with no
restriction on `C`, including duplicate column names. It fails for
`C = [(A, X), (A, Y)]`: the last-write-wins name map returns `(A, Y)` when
the first occurrence `(A, X)` is compared, so a spurious MODIFY line is
emitted against itself. -/
theorem colCompare_self_dup_ne_empty :
    colCompare [⟨"l", "T", "A", "X"⟩, ⟨"l", "T", "A", "Y"⟩]
        [⟨"l", "T", "A", "X"⟩, ⟨"l", "T", "A", "Y"⟩] ≠ "" := by
  decide

/-- C5 amended: the column diff of a list against itself is empty whenever
columns sharing a name share the type signature (in particular for any list
without duplicate names); with duplicate names of differing types the
self-diff is non-empty (see the counterexample). -/
theorem colCompare_self_empty_of_consistent_types (C : List Column)
    (h : ∀ a ∈ C, ∀ b ∈ C, a.Name = b.Name → a.Typ = b.Typ) :
    colCompare C C = "" := by
  have h1 : ∀ s ∈ C.map (addModify (buildMap C)), s = "" := by
    intro s hs
    rcases List.mem_map.mp hs with ⟨r, hr, rfl⟩
    rcases buildMap_isSome_of_mem hr with ⟨l, hl⟩
    rcases buildMap_some_mem hl with ⟨hlmem, hlname⟩
    have ht : l.Typ = r.Typ := h l hlmem r hr hlname
    simp [addModify, hl, ht]
  have h2 : ∀ s ∈ C.map (dropCheck (buildMap C)), s = "" := by
    intro s hs
    rcases List.mem_map.mp hs with ⟨l, hlm, rfl⟩
    rcases buildMap_isSome_of_mem hlm with ⟨x, hx⟩
    simp [dropCheck, hx]
  show strCat (C.map (addModify (buildMap C))) ++ strCat (C.map (dropCheck (buildMap C))) = ""
  rw [strCat_eq_empty h1, strCat_eq_empty h2]
  rfl

/-- Specification-side column lookup: with unique names per table, "the"
local column of a given name is the unique (hence first) match. -/
def specLookup (lo : List Column) (name : String) : Option Column :=
  lo.find? (fun c => c.Name == name)

/-- Specification-side ADD/MODIFY judgment for one remote column. -/
def specAddModify (lo : List Column) (r : Column) : String :=
  match specLookup lo r.Name with
  | none => addLine r
  | some l => if l.Typ = r.Typ then "" else modifyLine r l

/-- Specification-side DROP judgment for one local column. -/
def specDrop (re : List Column) (l : Column) : String :=
  if re.any (fun c => c.Name == l.Name) then "" else dropLine l

theorem find?_eq_head?_filter (p : Column → Bool) (l : List Column) :
    l.find? p = (l.filter p).head? := by
  induction l with
  | nil => rfl
  | cons c rest ih =>
    cases h : p c with
    | true => rw [List.find?_cons_of_pos _ h, List.filter_cons_of_pos h, List.head?_cons]
    | false =>
      have h' : ¬p c = true := by simp [h]
      rw [List.find?_cons_of_neg _ h', List.filter_cons_of_neg h', ih]

theorem length_filter_name_le_one {lo : List Column}
    (hnd : (lo.map Column.Name).Nodup) (name : String) :
    (lo.filter (fun c => c.Name == name)).length ≤ 1 := by
  induction lo with
  | nil => simp
  | cons c rest ih =>
    rw [List.map_cons, List.nodup_cons] at hnd
    rw [List.filter_cons]
    by_cases h : c.Name = name
    · have hb : (c.Name == name) = true := by simp [h]
      rw [hb, if_pos rfl]
      have hempty : rest.filter (fun x => x.Name == name) = [] := by
        rw [List.filter_eq_nil_iff]
        intro x hx hbad
        have hx1 : x.Name = name := by simpa using hbad
        exact hnd.1 (List.mem_map.mpr ⟨x, hx, hx1.trans h.symm⟩)
      simp [hempty]
    · have hb : (c.Name == name) = false := by simp [h]
      rw [hb]
      simp only [Bool.false_eq_true, if_false]
      exact ih hnd.2

theorem getLast?_eq_head?_of_short {l : List Column} (h : l.length ≤ 1) :
    l.getLast? = l.head? := by
  match l, h with
  | [], _ => rfl
  | [a], _ => rfl

/-- Under duplicate-free local names the last-write-wins map coincides with
unique lookup. -/
theorem buildMap_eq_specLookup {lo : List Column}
    (hnd : (lo.map Column.Name).Nodup) (name : String) :
    buildMap lo name = specLookup lo name := by
  rw [buildMap_eq_getLast_filter, specLookup, find?_eq_head?_filter]
  exact getLast?_eq_head?_of_short (length_filter_name_le_one hnd name)

theorem buildMap_eq_none_iff (cols : List Column) (name : String) :
    buildMap cols name = none ↔ ∀ c ∈ cols, ¬c.Name = name := by
  rw [buildMap_eq_getLast_filter, List.getLast?_eq_none_iff, List.filter_eq_nil_iff]
  constructor
  · intro h c hc hn
    exact h c hc (by simp [hn])
  · intro h c hc hb
    exact h c hc (by simpa using hb)

theorem dropCheck_eq_specDrop (re : List Column) (l : Column) :
    dropCheck (buildMap re) l = specDrop re l := by
  unfold dropCheck specDrop
  cases h : buildMap re l.Name with
  | some x =>
    have hm := buildMap_some_mem h
    have hany : re.any (fun c => c.Name == l.Name) = true :=
      List.any_eq_true.mpr ⟨x, hm.1, by simp [hm.2]⟩
    simp [hany]
  | none =>
    have hnone := (buildMap_eq_none_iff re l.Name).mp h
    have hany : re.any (fun c => c.Name == l.Name) = false := by
      rw [List.any_eq_false]
      intro c hc
      simpa using hnone c hc
    simp [hany]

/-- C3: in statement mode, `colCompare` emits, in remote order, exactly one
ADD line per remote column whose name is absent from local and exactly one
MODIFY line (carrying the old local type after `--`) per remote column whose
unique local namesake differs in type signature, nothing for matching
columns; then, in local order, exactly one DROP line per local column whose
name is absent from remote. The hypothesis is the spec's per-table
uniqueness of local column names, which makes "the" local namesake
well-defined. -/
theorem colCompare_statement_mode_spec (lo re : List Column)
    (hnd : (lo.map Column.Name).Nodup) :
    colCompare lo re =
      strCat (re.map (specAddModify lo)) ++ strCat (lo.map (specDrop re)) := by
  show strCat (re.map (addModify (buildMap lo))) ++ strCat (lo.map (dropCheck (buildMap re))) = _
  congr 1
  · congr 1
    apply List.map_congr_left
    intro r _
    unfold addModify specAddModify
    rw [buildMap_eq_specLookup hnd]
  · congr 1
    apply List.map_congr_left
    intro l _
    exact dropCheck_eq_specDrop re l

/-- Witness for C3 at the spec's end-to-end example 3: local
`[(ID, NUMBER(10,0))]`, remote `[(ID, NUMBER(12,2))]`; the diff equals the
spec-side rendering, which evaluates to the single MODIFY line. -/
theorem colCompare_statement_mode_witness :
    ([Column.mk "local" "A" "ID" "NUMBER(10,0)"].map Column.Name).Nodup ∧
    colCompare [Column.mk "local" "A" "ID" "NUMBER(10,0)"]
        [Column.mk "remote" "A" "ID" "NUMBER(12,2)"] =
      strCat ([Column.mk "remote" "A" "ID" "NUMBER(12,2)"].map
          (specAddModify [Column.mk "local" "A" "ID" "NUMBER(10,0)"])) ++
        strCat ([Column.mk "local" "A" "ID" "NUMBER(10,0)"].map
          (specDrop [Column.mk "remote" "A" "ID" "NUMBER(12,2)"])) ∧
    colCompare [Column.mk "local" "A" "ID" "NUMBER(10,0)"]
        [Column.mk "remote" "A" "ID" "NUMBER(12,2)"] =
      "ALTER TABLE A MODIFY ID NUMBER(12,2); --NUMBER(10,0)\n" :=
  ⟨by decide,
   colCompare_statement_mode_spec [Column.mk "local" "A" "ID" "NUMBER(10,0)"]
     [Column.mk "remote" "A" "ID" "NUMBER(12,2)"] (by decide),
   by decide⟩

/-- C9: the name→column map built from a column slice retains only the last
occurrence of each duplicated name (first conjunct), so earlier duplicates
are invisible to the lookups: the ADD/MODIFY loop runs over remote
occurrences only — each remote duplicate is judged, independently, against
the single surviving local entry — and the DROP loop tests each local
occurrence merely for name presence in remote (second conjunct, a complete
characterization of the output). -/
theorem colCompare_last_occurrence_semantics (lo re : List Column) :
    (∀ name, buildMap lo name = (lo.filter (fun c => c.Name == name)).getLast?) ∧
    colCompare lo re =
      strCat (re.map (fun r =>
        match (lo.filter (fun c => c.Name == r.Name)).getLast? with
        | none => addLine r
        | some l => if l.Typ = r.Typ then "" else modifyLine r l)) ++
      strCat (lo.map (specDrop re)) := by
  refine ⟨fun name => buildMap_eq_getLast_filter lo name, ?_⟩
  show strCat (re.map (addModify (buildMap lo))) ++ strCat (lo.map (dropCheck (buildMap re))) = _
  congr 1
  · congr 1
    apply List.map_congr_left
    intro r _
    unfold addModify
    rw [buildMap_eq_getLast_filter]
  · congr 1
    apply List.map_congr_left
    intro l _
    exact dropCheck_eq_specDrop re l

/-- C6: if either catalog's object-list fetch fails, `Compare` returns that
error wrapped with the object-list query text (`errors.Wrap(err, tblQry)`
at the fetch site, surfaced by `grp.Wait()`), and nothing has been printed:
no object from either diff section is emitted. -/
theorem compare_object_fetch_error (loRes reRes : Except String (List Object))
    (colErr : Option String) (loCols reCols : String → Option (List Column)) :
    (∀ e, loRes = Except.error e →
      compareRun loRes reRes colErr loCols reCols = ("", some (tblQry ++ ": " ++ e))) ∧
    (∀ lo e, loRes = Except.ok lo → reRes = Except.error e →
      compareRun loRes reRes colErr loCols reCols = ("", some (tblQry ++ ": " ++ e))) := by
  constructor
  · intro e he
    subst he
    rfl
  · intro lo e hlo hre
    subst hlo
    subst hre
    rfl

/-- Witness for C6: a failing local object-list fetch yields the wrapped
error and empty output. -/
theorem compare_object_fetch_error_witness :
    compareRun (Except.error "ORA-12154") (Except.ok []) none
        (fun _ => none) (fun _ => none) =
      ("", some (tblQry ++ ": " ++ "ORA-12154")) :=
  (compare_object_fetch_error (Except.error "ORA-12154") (Except.ok []) none
    (fun _ => none) (fun _ => none)).1 "ORA-12154" rfl

theorem sends_sum_le_length (f : Object → Nat) (h : ∀ o, f o ≤ 1) :
    ∀ l : List Object, (l.map f).sum ≤ l.length := by
  intro l
  induction l with
  | nil => simp
  | cons o rest ih =>
    rw [List.map_cons, List.sum_cons, List.length_cons]
    have := h o
    omega

/-- C7: the channel capacity `max(len(local), len(remote))` is at least the
number of candidate tables (each candidate is a distinct remote object, so
there are at most `len(remote)` of them), each per-table producer sends at
most one diff, and hence the total number of sends is at most the
capacity: no producer can be left blocked on a full channel. -/
theorem channel_capacity_sufficient (lo re : List Object)
    (loCols reCols : String → Option (List Column)) :
    (candidates lo re).length ≤ chanCap lo re ∧
    (∀ o, producerSends loCols reCols o ≤ 1) ∧
    ((candidates lo re).map (producerSends loCols reCols)).sum ≤ chanCap lo re := by
  have hsends : ∀ o, producerSends loCols reCols o ≤ 1 := by
    intro o
    unfold producerSends
    by_cases h : colCompare (idxLookup loCols o.Name) (idxLookup reCols o.Name) = "" <;>
      simp [h]
  have hlen : (candidates lo re).length ≤ re.length := by
    unfold candidates
    exact List.length_filter_le _ re
  refine ⟨le_trans hlen (le_max_left _ _), hsends, ?_⟩
  exact le_trans (sends_sum_le_length _ hsends (candidates lo re))
    (le_trans hlen (le_max_left _ _))

/-- The synchronization-relevant events of one `Compare` run (main.go):
issuing each catalog's object-list query (inside the goroutines spawned by
the first `grp.Go` loop), the return of `grp.Wait()` once both object
fetches completed (`objJoin`), issuing each catalog's bulk column query
(inside the goroutines spawned by the `grpCol.Go` loop — spawned before
`grp.Wait()` is called), the completion of both column fetches, observable
as `grpColCtx.Done()` (`colJoin`), and the start of a per-table
`colCompare` (`compareStart`). -/
inductive Ev where
  | objIssueL
  | objIssueR
  | objJoin
  | colIssueL
  | colIssueR
  | colJoin
  | compareStart
deriving DecidableEq, Repr

/-- All events of a run. -/
def allEvents : List Ev :=
  [Ev.objIssueL, Ev.objIssueR, Ev.objJoin, Ev.colIssueL, Ev.colIssueR,
   Ev.colJoin, Ev.compareStart]

/-- The happens-before edges the source establishes: a join follows the
completion of what it joins (`grp.Wait` returns only after both object
queries ran; `grpColCtx` is done only after both column queries ran), and a
per-table comparison starts only after `grp.Wait()` returned (its goroutine
is spawned later in program order) and after `<-grpColCtx.Done()` delivered.
No edge orders a column-query issue after `objJoin`: the column goroutines
are spawned before `grp.Wait()` is called and run concurrently with the
object fetches. -/
def precedes : List (Ev × Ev) :=
  [(Ev.objIssueL, Ev.objJoin), (Ev.objIssueR, Ev.objJoin),
   (Ev.colIssueL, Ev.colJoin), (Ev.colIssueR, Ev.colJoin),
   (Ev.objJoin, Ev.compareStart), (Ev.colJoin, Ev.compareStart)]

/-- A possible execution order: each event once, respecting every
happens-before edge. -/
def ValidSchedule (s : List Ev) : Prop :=
  s.Perm allEvents ∧ ∀ p ∈ precedes, s.indexOf p.1 < s.indexOf p.2

/-- C8 counterexample: the claim asserts that no column fetch is issued
before the object-list fetches complete; yet the schedule issuing both
column queries first respects every ordering the source establishes, so
the code does not order column-query issuance after `objJoin` (the column
goroutines are spawned before `grp.Wait()`). -/
theorem col_fetch_can_precede_obj_join :
    ValidSchedule [Ev.colIssueL, Ev.colIssueR, Ev.objIssueL, Ev.objIssueR,
        Ev.objJoin, Ev.colJoin, Ev.compareStart] ∧
    [Ev.colIssueL, Ev.colIssueR, Ev.objIssueL, Ev.objIssueR,
        Ev.objJoin, Ev.colJoin, Ev.compareStart].indexOf Ev.colIssueL <
      [Ev.colIssueL, Ev.colIssueR, Ev.objIssueL, Ev.objIssueR,
        Ev.objJoin, Ev.colJoin, Ev.compareStart].indexOf Ev.objJoin := by
  refine ⟨⟨by decide, by decide⟩, by decide⟩

/-- C8 amended: what is ordered after the completion of both object-list
fetches is the per-table column comparison, not the column fetch: in every
execution respecting the source's synchronization, `compareStart` follows
`objJoin`, follows `colJoin`, and follows both column-query issues — while
the column queries themselves may be issued before the object lists are
complete. -/
theorem compare_starts_after_joins (s : List Ev) (hs : ValidSchedule s) :
    s.indexOf Ev.objJoin < s.indexOf Ev.compareStart ∧
    s.indexOf Ev.colJoin < s.indexOf Ev.compareStart ∧
    s.indexOf Ev.colIssueL < s.indexOf Ev.compareStart ∧
    s.indexOf Ev.colIssueR < s.indexOf Ev.compareStart := by
  obtain ⟨-, h⟩ := hs
  have h1 := h (Ev.objJoin, Ev.compareStart) (by decide)
  have h2 := h (Ev.colJoin, Ev.compareStart) (by decide)
  have h3 := h (Ev.colIssueL, Ev.colJoin) (by decide)
  have h4 := h (Ev.colIssueR, Ev.colJoin) (by decide)
  exact ⟨h1, h2, lt_trans h3 h2, lt_trans h4 h2⟩

/-- Witness for the amended C8 at the fully sequential schedule. -/
theorem compare_starts_after_joins_witness :
    ValidSchedule allEvents ∧
    (allEvents.indexOf Ev.objJoin < allEvents.indexOf Ev.compareStart ∧
     allEvents.indexOf Ev.colJoin < allEvents.indexOf Ev.compareStart ∧
     allEvents.indexOf Ev.colIssueL < allEvents.indexOf Ev.compareStart ∧
     allEvents.indexOf Ev.colIssueR < allEvents.indexOf Ev.compareStart) :=
  ⟨⟨by decide, by decide⟩, compare_starts_after_joins allEvents ⟨by decide, by decide⟩⟩

/-- Witness for the amended C5 at a concrete duplicate-free list. -/
theorem colCompare_self_empty_witness :
    (∀ a ∈ [Column.mk "l" "T" "A" "X", Column.mk "l" "T" "B" "Y"],
      ∀ b ∈ [Column.mk "l" "T" "A" "X", Column.mk "l" "T" "B" "Y"],
        a.Name = b.Name → a.Typ = b.Typ) ∧
    colCompare [Column.mk "l" "T" "A" "X", Column.mk "l" "T" "B" "Y"]
      [Column.mk "l" "T" "A" "X", Column.mk "l" "T" "B" "Y"] = "" :=
  ⟨by decide, colCompare_self_empty_of_consistent_types _ (by decide)⟩

end SchemaDiff
